import Mathlib

/-!
Verification of the candidate consolidation, batching, aggregation and
cache pipeline of the `chat_to_map` repository.

The TypeScript sources are shallowly embedded: JavaScript numbers are
modelled as `ℤ`/`ℚ`, `Date` values as epoch-millisecond integers,
`Map`/`Set` objects as association lists preserving insertion order, and
file-system state is passed explicitly.  Definitions follow the source
functions of the same name; definitions that model code missing from the
repository snapshot carry a doc comment starting `Modelled from the spec:`.
-/

namespace ChatToMap

/-! ## Data model (`src/types.ts`) -/

/-- `CandidateSource` (`src/types.ts`): pattern match, URL match, or
semantic match with similarity and originating query. -/
inductive CandidateSource where
  | regex (pattern : String)
  | url (urlType : String)
  | semantic (similarity : ℚ) (query : String)
  deriving DecidableEq, Repr

/-- The candidate kind used by `deduplicateAgreements`
(`c.candidateType === 'suggestion' | 'agreement'`). -/
inductive CandidateType where
  | suggestion
  | agreement
  deriving DecidableEq, Repr

/-- `CandidateMessage` (`src/types.ts` and `src/extraction`): a message
flagged as possibly describing an activity.  `timestamp` is epoch
milliseconds; `context` is `none` for the JS `undefined`. -/
structure CandidateMessage where
  messageId : ℤ
  content : String
  sender : String
  timestamp : ℤ
  source : CandidateSource
  confidence : ℚ
  candidateType : CandidateType
  context : Option String := none
  deriving DecidableEq, Repr

/-! ## Stable sorting

JavaScript `Array.prototype.sort` with comparator
`(a, b) => b.confidence - a.confidence` is a stable sort by descending
confidence; we model it with `List.insertionSort`, which is stable. -/

/-- The descending-confidence order used by `deduplicateAgreements`. -/
def confDescSort (l : List CandidateMessage) : List CandidateMessage :=
  l.insertionSort (fun a b => b.confidence ≤ a.confidence)

theorem confDescSort_perm (l : List CandidateMessage) : List.Perm (confDescSort l) l :=
  List.perm_insertionSort _ l

instance : IsTotal CandidateMessage (fun a b => b.confidence ≤ a.confidence) :=
  ⟨fun a b => le_total b.confidence a.confidence⟩

instance : IsTrans CandidateMessage (fun a b => b.confidence ≤ a.confidence) :=
  ⟨fun _ _ _ h h' => le_trans h' h⟩

theorem confDescSort_sorted (l : List CandidateMessage) :
    (confDescSort l).Sorted (fun a b => b.confidence ≤ a.confidence) :=
  List.sorted_insertionSort _ l

/-! ## Agreement deduplication (`src/extraction/index.ts`) -/

/-- Whether a suggestion lies within `proximity` message ids of `a`
(the `suggestions.some(...)` test in `deduplicateAgreements`). -/
def hasNearbySuggestion (suggestions : List CandidateMessage) (a : CandidateMessage)
    (proximity : ℤ) : Bool :=
  suggestions.any (fun s => |s.messageId - a.messageId| ≤ proximity)

/-- `deduplicateAgreements` (`src/extraction/index.ts`, lines 89–123):
drop each agreement candidate within `proximity` of some suggestion,
then return suggestions plus kept agreements sorted by descending
confidence, together with the number of agreements removed. -/
def deduplicateAgreements (candidates : List CandidateMessage) (proximity : ℤ) :
    List CandidateMessage × ℕ :=
  if proximity ≤ 0 then
    (candidates, 0)
  else
    let suggestions := candidates.filter (fun c => c.candidateType = .suggestion)
    let agreements := candidates.filter (fun c => c.candidateType = .agreement)
    let keptAgreements :=
      agreements.filter (fun a => ! hasNearbySuggestion suggestions a proximity)
    let removedCount :=
      (agreements.filter (fun a => hasNearbySuggestion suggestions a proximity)).length
    (confDescSort (suggestions ++ keptAgreements), removedCount)

/-! ## Spec-side predicates for agreement deduplication -/

/-- Spec-side predicate: candidate `c` is an agreement whose minimum absolute
message-id distance to some suggestion of `candidates` is at most
`proximity` (equivalently, some suggestion lies within `proximity`). -/
def removedByProximity (candidates : List CandidateMessage) (proximity : ℤ)
    (c : CandidateMessage) : Bool :=
  decide (c.candidateType = .agreement) &&
    candidates.any (fun s =>
      decide (s.candidateType = .suggestion) && decide (|s.messageId - c.messageId| ≤ proximity))

/-- Spec-side predicate: candidate `c` survives agreement deduplication:
it is a suggestion, or an agreement with no suggestion within `proximity`. -/
def keptByProximity (candidates : List CandidateMessage) (proximity : ℤ)
    (c : CandidateMessage) : Bool :=
  decide (c.candidateType = .suggestion) ||
    (decide (c.candidateType = .agreement) && ! (candidates.any (fun s =>
      decide (s.candidateType = .suggestion) && decide (|s.messageId - c.messageId| ≤ proximity))))

theorem any_filter {α : Type _} (p q : α → Bool) (l : List α) :
    (l.filter p).any q = l.any (fun a => p a && q a) := by
  induction l with
  | nil => rfl
  | cons a l ih =>
    by_cases h : p a = true
    · simp [List.filter_cons, h, List.any_cons, ih]
    · simp only [Bool.not_eq_true] at h
      simp [List.filter_cons, h, List.any_cons, ih]

theorem filter_filter_append_perm {α : Type _} (p q : α → Bool) (l : List α)
    (h : ∀ a, p a = true → q a = false) :
    List.Perm (l.filter p ++ l.filter q) (l.filter (fun a => p a || q a)) := by
  induction l with
  | nil => simp
  | cons a l ih =>
    by_cases hp : p a = true
    · have hq := h a hp
      simp only [List.filter_cons, hp, hq, Bool.true_or, if_true, Bool.false_eq_true, if_false,
        List.cons_append]
      exact ih.cons a
    · simp only [Bool.not_eq_true] at hp
      by_cases hq : q a = true
      · simp only [List.filter_cons, hp, hq, Bool.false_or, Bool.false_eq_true, if_false, if_true]
        exact (List.perm_middle.trans (ih.cons a))
      · simp only [Bool.not_eq_true] at hq
        simp only [List.filter_cons, hp, hq, Bool.false_or, Bool.false_eq_true, if_false]
        exact ih

/-- C2: `deduplicateAgreements` removes exactly the agreement candidates
within `proximity` (inclusive boundary) of some suggestion; a proximity
`≤ 0` returns the input unchanged with zero removed; survivors come back
sorted by descending confidence. -/
theorem deduplicateAgreements_spec (candidates : List CandidateMessage) (proximity : ℤ) :
    (proximity ≤ 0 → deduplicateAgreements candidates proximity = (candidates, 0)) ∧
    (0 < proximity →
      List.Perm (deduplicateAgreements candidates proximity).1
          (candidates.filter (keptByProximity candidates proximity)) ∧
        (deduplicateAgreements candidates proximity).2 =
          (candidates.filter (removedByProximity candidates proximity)).length ∧
        ((deduplicateAgreements candidates proximity).1).Sorted
          (fun a b => b.confidence ≤ a.confidence)) := by
  constructor
  · intro h
    simp [deduplicateAgreements, h]
  · intro h
    have hnot : ¬ proximity ≤ 0 := not_le.mpr h
    refine ⟨?_, ?_, ?_⟩
    · simp only [deduplicateAgreements, hnot, if_false]
      refine (confDescSort_perm _).trans ?_
      rw [List.filter_filter]
      refine (filter_filter_append_perm _ _ candidates ?_).trans (List.Perm.of_eq ?_)
      · intro a ha
        simp only [decide_eq_true_eq] at ha
        simp [ha]
      · apply List.filter_congr
        intro c _
        simp only [keptByProximity, hasNearbySuggestion, any_filter]
        congr 1
        exact Bool.and_comm _ _
    · simp only [deduplicateAgreements, hnot, if_false]
      rw [List.filter_filter]
      congr 1
      apply List.filter_congr
      intro c _
      simp only [removedByProximity, hasNearbySuggestion, any_filter]
      exact Bool.and_comm _ _
    · simp only [deduplicateAgreements, hnot, if_false]
      exact confDescSort_sorted _

/-- A small concrete candidate used to instantiate the theorems. -/
def cEx (id : ℤ) (conf : ℚ) (t : CandidateType) : CandidateMessage :=
  { messageId := id, content := "m", sender := "u", timestamp := 0,
    source := CandidateSource.regex "p", confidence := conf, candidateType := t }

/-- C2 witness: suggestion at id 10, agreements at ids 15 and 16 with
proximity 5 — distance 5 is removed, distance 6 is kept; proximity 0
returns the input unchanged. -/
theorem deduplicateAgreements_spec_witness :
    deduplicateAgreements
        [cEx 10 9 .suggestion, cEx 15 8 .agreement, cEx 16 7 .agreement] 0 =
      ([cEx 10 9 .suggestion, cEx 15 8 .agreement, cEx 16 7 .agreement], 0) ∧
    List.Perm
      (deduplicateAgreements
        [cEx 10 9 .suggestion, cEx 15 8 .agreement, cEx 16 7 .agreement] 5).1
      ([cEx 10 9 .suggestion, cEx 15 8 .agreement, cEx 16 7 .agreement].filter
        (keptByProximity
          [cEx 10 9 .suggestion, cEx 15 8 .agreement, cEx 16 7 .agreement] 5)) ∧
    (deduplicateAgreements
        [cEx 10 9 .suggestion, cEx 15 8 .agreement, cEx 16 7 .agreement] 5).1 =
      [cEx 10 9 .suggestion, cEx 16 7 .agreement] ∧
    (deduplicateAgreements
        [cEx 10 9 .suggestion, cEx 15 8 .agreement, cEx 16 7 .agreement] 5).2 = 1 :=
  ⟨(deduplicateAgreements_spec _ 0).1 (by decide),
   ((deduplicateAgreements_spec _ 5).2 (by decide)).1,
   by decide, by decide⟩

/-! ## Token estimation (`src/classifier/tokenizer.ts`, `batching.ts`)

`countTokens` calls the external `js-tiktoken` encoder — a black box per
spec §2 ("Token Estimator — pure function: text → integer token cost,
using a fixed external tokenizer as a black box").  We therefore
parametrise over it, and over the `Date.toISOString` rendering. -/

/-- `SYSTEM_PROMPT_TOKENS` (`src/classifier/tokenizer.ts`). -/
def SYSTEM_PROMPT_TOKENS : ℕ := 350

/-- `MAX_BATCH_TOKENS` (`src/classifier/tokenizer.ts`). -/
def MAX_BATCH_TOKENS : ℕ := 8000

/-- `estimateCandidateTokens` (`src/classifier/batching.ts`, lines
132–138): token cost of the fully formatted prompt fragment.  A JS
falsy (`undefined` or empty) context falls back to the
"`>>> sender: content`" line. -/
def estimateCandidateTokens (countTokens : String → ℕ) (toIso : ℤ → String)
    (c : CandidateMessage) : ℕ :=
  let header := "ID: " ++ toString c.messageId ++ " | " ++ toIso c.timestamp
  let context :=
    match c.context with
    | some ctx => if ctx = "" then ">>> " ++ c.sender ++ ": " ++ c.content else ctx
    | none => ">>> " ++ c.sender ++ ": " ++ c.content
  countTokens ("---\n" ++ header ++ "\n" ++ context ++ "\n---")

/-! ## Token-aware batching (`src/classifier/batching.ts`, lines 148–180) -/

/-- Loop state of `createTokenAwareBatches`. -/
structure TokenBatchState where
  batches : List (List CandidateMessage)
  currentBatch : List CandidateMessage
  currentTokens : ℕ
  deriving Repr

/-- One iteration of the `createTokenAwareBatches` loop. -/
def tokenBatchStep (est : CandidateMessage → ℕ) (maxTokens : ℕ)
    (s : TokenBatchState) (c : CandidateMessage) : TokenBatchState :=
  let candidateTokens := est c
  let s' :=
    if maxTokens < s.currentTokens + candidateTokens ∧ s.currentBatch ≠ [] then
      { batches := s.batches ++ [s.currentBatch], currentBatch := [],
        currentTokens := SYSTEM_PROMPT_TOKENS }
    else s
  { batches := s'.batches, currentBatch := s'.currentBatch ++ [c],
    currentTokens := s'.currentTokens + candidateTokens }

/-- `createTokenAwareBatches` (`src/classifier/batching.ts`): accumulate
candidates while tracking a running token count seeded with
`SYSTEM_PROMPT_TOKENS`; flush when the next candidate would exceed
`maxTokens` and the current batch is non-empty. -/
def createTokenAwareBatches (est : CandidateMessage → ℕ) (maxTokens : ℕ)
    (candidates : List CandidateMessage) : List (List CandidateMessage) :=
  if candidates.isEmpty then []
  else
    let s := candidates.foldl (tokenBatchStep est maxTokens)
      ⟨[], [], SYSTEM_PROMPT_TOKENS⟩
    if s.currentBatch ≠ [] then s.batches ++ [s.currentBatch] else s.batches

/-! ## Proximity grouping (`src/classifier/batching.ts`, lines 25–69) -/

/-- The ascending-message-id sort at the top of
`groupCandidatesByProximity` (JS stable `sort((a, b) => a.messageId - b.messageId)`). -/
def sortByMessageId (l : List CandidateMessage) : List CandidateMessage :=
  l.insertionSort (fun a b => a.messageId ≤ b.messageId)

/-- Loop state of `groupCandidatesByProximity`. -/
structure GroupState where
  groups : List (List CandidateMessage)
  currentGroup : List CandidateMessage
  deriving Repr

/-- One iteration of the `groupCandidatesByProximity` loop: an empty
current group (or, in the defensive JS branch, a missing last element)
always receives the candidate; otherwise a gap larger than
`proximityGap` starts a new group. -/
def groupStep (proximityGap : ℤ) (s : GroupState) (c : CandidateMessage) : GroupState :=
  match s.currentGroup.getLast? with
  | none => ⟨s.groups, s.currentGroup ++ [c]⟩
  | some lastCandidate =>
    if c.messageId - lastCandidate.messageId ≤ proximityGap then
      ⟨s.groups, s.currentGroup ++ [c]⟩
    else
      ⟨s.groups ++ [s.currentGroup], [c]⟩

/-- `groupCandidatesByProximity` (`src/classifier/batching.ts`): sort by
message id, then split whenever the id gap exceeds `proximityGap`. -/
def groupCandidatesByProximity (candidates : List CandidateMessage)
    (proximityGap : ℤ) : List (List CandidateMessage) :=
  if candidates.isEmpty then []
  else
    let sorted := sortByMessageId candidates
    let s := sorted.foldl (groupStep proximityGap) ⟨[], []⟩
    if s.currentGroup.isEmpty then s.groups else s.groups ++ [s.currentGroup]

/-! ## Smart batching (`src/classifier/batching.ts`, lines 83–126) -/

/-- The fixed-size split `for (let i = 0; i < group.length; i += batchSize)`
of an oversized group.  The JS loop diverges for `batchSize = 0` (an
input-contract violation per spec §4.2); this embedding peels one
element per chunk and is therefore total, agreeing with the source for
every `batchSize ≥ 1`. -/
def chunksOf {α : Type _} (batchSize : ℕ) : List α → List (List α)
  | [] => []
  | a :: l => (a :: l.take (batchSize - 1)) :: chunksOf batchSize (l.drop (batchSize - 1))
termination_by l => l.length
decreasing_by
  simp only [List.length_drop, List.length_cons]
  omega

/-- Loop state of `createSmartBatches`. -/
structure SmartBatchState where
  batches : List (List CandidateMessage)
  currentBatch : List CandidateMessage
  deriving Repr

/-- One iteration of the `createSmartBatches` loop over proximity groups. -/
def smartBatchStep (batchSize : ℕ) (s : SmartBatchState)
    (group : List CandidateMessage) : SmartBatchState :=
  if batchSize < s.currentBatch.length + group.length then
    let flushed := if s.currentBatch.length ≠ 0 then s.batches ++ [s.currentBatch] else s.batches
    if batchSize < group.length then
      ⟨flushed ++ chunksOf batchSize group, []⟩
    else
      ⟨flushed, group⟩
  else
    ⟨s.batches, s.currentBatch ++ group⟩

/-- `createSmartBatches` (`src/classifier/batching.ts`): fold proximity
groups into batches of at most `batchSize` candidates, splitting
oversized groups at fixed boundaries. -/
def createSmartBatches (candidates : List CandidateMessage) (batchSize : ℕ)
    (proximityGap : ℤ) : List (List CandidateMessage) :=
  if candidates.isEmpty then []
  else
    let groups := groupCandidatesByProximity candidates proximityGap
    let s := groups.foldl (smartBatchStep batchSize) ⟨[], []⟩
    if s.currentBatch.length ≠ 0 then s.batches ++ [s.currentBatch] else s.batches

/-! ## Invariants of the token-aware batching loop -/

/-- Loop invariant of `createTokenAwareBatches`: completed batches are
non-empty and, when they hold at least two candidates, fit the budget
with the system-prompt overhead; the running token count equals the
overhead plus the current batch's cost; the processed prefix is exactly
the completed batches plus the current batch. -/
def TokenInv (est : CandidateMessage → ℕ) (maxTokens : ℕ) (s : TokenBatchState)
    (seen : List CandidateMessage) : Prop :=
  (∀ b ∈ s.batches, b ≠ [] ∧
    (2 ≤ b.length → SYSTEM_PROMPT_TOKENS + (b.map est).sum ≤ maxTokens)) ∧
  s.currentTokens = SYSTEM_PROMPT_TOKENS + (s.currentBatch.map est).sum ∧
  (2 ≤ s.currentBatch.length → s.currentTokens ≤ maxTokens) ∧
  s.batches.flatten ++ s.currentBatch = seen

theorem tokenBatchStep_eq_pos (est : CandidateMessage → ℕ) (maxTokens : ℕ)
    (s : TokenBatchState) (c : CandidateMessage)
    (h : maxTokens < s.currentTokens + est c ∧ s.currentBatch ≠ []) :
    tokenBatchStep est maxTokens s c =
      ⟨s.batches ++ [s.currentBatch], [c], SYSTEM_PROMPT_TOKENS + est c⟩ := by
  simp [tokenBatchStep, h]

theorem tokenBatchStep_eq_neg (est : CandidateMessage → ℕ) (maxTokens : ℕ)
    (s : TokenBatchState) (c : CandidateMessage)
    (h : ¬ (maxTokens < s.currentTokens + est c ∧ s.currentBatch ≠ [])) :
    tokenBatchStep est maxTokens s c =
      ⟨s.batches, s.currentBatch ++ [c], s.currentTokens + est c⟩ := by
  simp only [tokenBatchStep, if_neg h]

theorem tokenBatchStep_inv (est : CandidateMessage → ℕ) (maxTokens : ℕ)
    (s : TokenBatchState) (c : CandidateMessage) (seen : List CandidateMessage)
    (hinv : TokenInv est maxTokens s seen) :
    TokenInv est maxTokens (tokenBatchStep est maxTokens s c) (seen ++ [c]) := by
  obtain ⟨hb, ht, hc, hj⟩ := hinv
  by_cases hcond : maxTokens < s.currentTokens + est c ∧ s.currentBatch ≠ []
  · rw [tokenBatchStep_eq_pos est maxTokens s c hcond]
    refine ⟨?_, ?_, ?_, ?_⟩
    · intro b hbmem
      rcases List.mem_append.mp hbmem with hbmem | hbmem
      · exact hb b hbmem
      · rcases List.mem_singleton.mp hbmem with rfl
        exact ⟨hcond.2, fun hlen => ht ▸ hc hlen⟩
    · simp
    · intro hlen
      simp at hlen
    · dsimp only
      rw [← hj]
      simp [List.append_assoc]
  · rw [tokenBatchStep_eq_neg est maxTokens s c hcond]
    refine ⟨hb, ?_, ?_, ?_⟩
    · dsimp only
      simp [ht, Nat.add_assoc]
    · dsimp only
      intro hlen
      by_cases hcur : s.currentBatch = []
      · rw [hcur] at hlen
        simp at hlen
      · have hnl : ¬ maxTokens < s.currentTokens + est c := fun hlt => hcond ⟨hlt, hcur⟩
        exact not_lt.mp hnl
    · dsimp only
      rw [← List.append_assoc, hj]

theorem tokenFold_inv (est : CandidateMessage → ℕ) (maxTokens : ℕ)
    (cs : List CandidateMessage) :
    ∀ (s : TokenBatchState) (seen : List CandidateMessage),
      TokenInv est maxTokens s seen →
      TokenInv est maxTokens (cs.foldl (tokenBatchStep est maxTokens) s) (seen ++ cs) := by
  induction cs with
  | nil => intro s seen h; simpa using h
  | cons c cs ih =>
    intro s seen h
    have h' := tokenBatchStep_inv est maxTokens s c seen h
    have := ih (tokenBatchStep est maxTokens s c) (seen ++ [c]) h'
    simpa [List.append_assoc] using this

theorem createTokenAwareBatches_props (est : CandidateMessage → ℕ) (maxTokens : ℕ)
    (candidates : List CandidateMessage) :
    (∀ b ∈ createTokenAwareBatches est maxTokens candidates,
      b ≠ [] ∧ (2 ≤ b.length → SYSTEM_PROMPT_TOKENS + (b.map est).sum ≤ maxTokens)) ∧
    (createTokenAwareBatches est maxTokens candidates).flatten = candidates := by
  by_cases hempty : candidates.isEmpty = true
  · have : candidates = [] := List.isEmpty_iff.mp hempty
    subst this
    simp [createTokenAwareBatches]
  · have hinv0 : TokenInv est maxTokens ⟨[], [], SYSTEM_PROMPT_TOKENS⟩ [] := by
      refine ⟨?_, ?_, ?_, ?_⟩ <;> simp
    have hinv := tokenFold_inv est maxTokens candidates _ [] hinv0
    simp only [List.nil_append] at hinv
    obtain ⟨hb, ht, hc, hj⟩ := hinv
    unfold createTokenAwareBatches
    rw [if_neg hempty]
    by_cases hcur :
        (candidates.foldl (tokenBatchStep est maxTokens)
          ⟨[], [], SYSTEM_PROMPT_TOKENS⟩).currentBatch = []
    · rw [if_neg (by simpa using hcur)]
      constructor
      · intro b hbmem
        exact hb b hbmem
      · rw [hcur, List.append_nil] at hj
        exact hj
    · rw [if_pos (by simpa using hcur)]
      constructor
      · intro b hbmem
        rcases List.mem_append.mp hbmem with hbmem | hbmem
        · exact hb b hbmem
        · rcases List.mem_singleton.mp hbmem with rfl
          exact ⟨hcur, fun hlen => ht ▸ hc hlen⟩
      · simpa using hj

/-- C4: `createTokenAwareBatches` returns only non-empty batches; every
batch holding at least two candidates fits `SYSTEM_PROMPT_TOKENS` plus
the summed candidate estimates within the budget (only a singleton batch
may exceed it); concatenating the batches returns every input candidate
exactly once. -/
theorem createTokenAwareBatches_spec (est : CandidateMessage → ℕ) (maxTokens : ℕ)
    (candidates : List CandidateMessage) :
    (∀ b ∈ createTokenAwareBatches est maxTokens candidates, b ≠ []) ∧
    (∀ b ∈ createTokenAwareBatches est maxTokens candidates,
      2 ≤ b.length → SYSTEM_PROMPT_TOKENS + (b.map est).sum ≤ maxTokens) ∧
    (createTokenAwareBatches est maxTokens candidates).flatten = candidates :=
  ⟨fun b hb => ((createTokenAwareBatches_props est maxTokens candidates).1 b hb).1,
   fun b hb => ((createTokenAwareBatches_props est maxTokens candidates).1 b hb).2,
   (createTokenAwareBatches_props est maxTokens candidates).2⟩

/-- C4 witness: two candidates of estimated size 100 each fit one batch
under the default 8000-token budget; the batch obeys the bound and the
flattening identity. -/
theorem createTokenAwareBatches_spec_witness :
    ([cEx 1 9 .suggestion, cEx 2 8 .suggestion] ∈
        createTokenAwareBatches (fun _ => 100) MAX_BATCH_TOKENS
          [cEx 1 9 .suggestion, cEx 2 8 .suggestion]) ∧
    ([cEx 1 9 .suggestion, cEx 2 8 .suggestion] ≠ []) ∧
    SYSTEM_PROMPT_TOKENS +
        (([cEx 1 9 .suggestion, cEx 2 8 .suggestion]).map (fun _ => 100)).sum ≤
      MAX_BATCH_TOKENS ∧
    (createTokenAwareBatches (fun _ => 100) MAX_BATCH_TOKENS
        [cEx 1 9 .suggestion, cEx 2 8 .suggestion]).flatten =
      [cEx 1 9 .suggestion, cEx 2 8 .suggestion] :=
  ⟨by decide,
   (createTokenAwareBatches_spec (fun _ => 100) MAX_BATCH_TOKENS
      [cEx 1 9 .suggestion, cEx 2 8 .suggestion]).1 _ (by decide),
   (createTokenAwareBatches_spec (fun _ => 100) MAX_BATCH_TOKENS
      [cEx 1 9 .suggestion, cEx 2 8 .suggestion]).2.1 _ (by decide) (by decide),
   (createTokenAwareBatches_spec (fun _ => 100) MAX_BATCH_TOKENS
      [cEx 1 9 .suggestion, cEx 2 8 .suggestion]).2.2⟩

/-- C10: concatenating the batches of `createTokenAwareBatches` in order
yields exactly the input list in its original order, for every estimator
and every token budget. -/
theorem createTokenAwareBatches_join (est : CandidateMessage → ℕ) (maxTokens : ℕ)
    (candidates : List CandidateMessage) :
    (createTokenAwareBatches est maxTokens candidates).flatten = candidates :=
  (createTokenAwareBatches_props est maxTokens candidates).2

/-! ## Invariants of proximity grouping -/

/-- Loop invariant of `groupCandidatesByProximity`: the processed prefix
is exactly the closed groups plus the open group, and closed groups are
non-empty. -/
def GroupInv (s : GroupState) (seen : List CandidateMessage) : Prop :=
  s.groups.flatten ++ s.currentGroup = seen ∧ ∀ g ∈ s.groups, g ≠ []

theorem groupStep_inv (proximityGap : ℤ) (s : GroupState) (c : CandidateMessage)
    (seen : List CandidateMessage) (hinv : GroupInv s seen) :
    GroupInv (groupStep proximityGap s c) (seen ++ [c]) := by
  obtain ⟨hj, hg⟩ := hinv
  rcases hcur : s.currentGroup.getLast? with _ | lastc
  · have hstep : groupStep proximityGap s c = ⟨s.groups, s.currentGroup ++ [c]⟩ := by
      simp only [groupStep, hcur]
    rw [hstep]
    refine ⟨?_, hg⟩
    dsimp only
    rw [← List.append_assoc, hj]
  · by_cases hgap : c.messageId - lastc.messageId ≤ proximityGap
    · have hstep : groupStep proximityGap s c = ⟨s.groups, s.currentGroup ++ [c]⟩ := by
        simp only [groupStep, hcur, if_pos hgap]
      rw [hstep]
      refine ⟨?_, hg⟩
      dsimp only
      rw [← List.append_assoc, hj]
    · have hne : s.currentGroup ≠ [] := by
        intro hnil
        rw [hnil] at hcur
        simp at hcur
      have hstep : groupStep proximityGap s c = ⟨s.groups ++ [s.currentGroup], [c]⟩ := by
        simp only [groupStep, hcur, if_neg hgap]
      rw [hstep]
      refine ⟨?_, ?_⟩
      · dsimp only
        simp only [List.flatten_append, List.flatten_cons, List.flatten_nil, List.append_nil]
        rw [← hj]
      · intro g hgmem
        rcases List.mem_append.mp hgmem with hgmem | hgmem
        · exact hg g hgmem
        · rcases List.mem_singleton.mp hgmem with rfl
          exact hne

theorem groupFold_inv (proximityGap : ℤ) (cs : List CandidateMessage) :
    ∀ (s : GroupState) (seen : List CandidateMessage), GroupInv s seen →
      GroupInv (cs.foldl (groupStep proximityGap) s) (seen ++ cs) := by
  induction cs with
  | nil => intro s seen h; simpa using h
  | cons c cs ih =>
    intro s seen h
    have h' := groupStep_inv proximityGap s c seen h
    have := ih (groupStep proximityGap s c) (seen ++ [c]) h'
    simpa [List.append_assoc] using this

theorem groupCandidatesByProximity_props (candidates : List CandidateMessage)
    (proximityGap : ℤ) :
    (groupCandidatesByProximity candidates proximityGap).flatten =
        sortByMessageId candidates ∧
    ∀ g ∈ groupCandidatesByProximity candidates proximityGap, g ≠ [] := by
  by_cases hempty : candidates.isEmpty = true
  · have : candidates = [] := List.isEmpty_iff.mp hempty
    subst this
    constructor
    · simp [groupCandidatesByProximity, sortByMessageId]
    · intro g hg
      simp [groupCandidatesByProximity] at hg
  · have hinv0 : GroupInv ⟨[], []⟩ [] := by constructor <;> simp
    have hinv := groupFold_inv proximityGap (sortByMessageId candidates) _ [] hinv0
    simp only [List.nil_append] at hinv
    obtain ⟨hj, hg⟩ := hinv
    unfold groupCandidatesByProximity
    rw [if_neg hempty]
    by_cases hcur :
        ((sortByMessageId candidates).foldl (groupStep proximityGap)
          ⟨[], []⟩).currentGroup.isEmpty = true
    · rw [if_pos hcur]
      refine ⟨?_, hg⟩
      rw [List.isEmpty_iff.mp hcur, List.append_nil] at hj
      exact hj
    · rw [if_neg hcur]
      constructor
      · simpa using hj
      · intro g hgmem
        rcases List.mem_append.mp hgmem with hgmem | hgmem
        · exact hg g hgmem
        · rcases List.mem_singleton.mp hgmem with rfl
          exact fun hnil => hcur (by simp [hnil])

theorem sortByMessageId_perm (l : List CandidateMessage) :
    List.Perm (sortByMessageId l) l :=
  List.perm_insertionSort _ l

/-! ## Invariants of smart batching -/

theorem chunksOf_flatten {α : Type _} (batchSize : ℕ) (l : List α) :
    (chunksOf batchSize l).flatten = l := by
  induction l using chunksOf.induct batchSize with
  | case1 => simp [chunksOf]
  | case2 a l ih =>
    rw [chunksOf]
    simp only [List.flatten_cons, ih]
    simp [List.take_append_drop]

theorem chunksOf_mem {α : Type _} (batchSize : ℕ) (l : List α) (hb : 1 ≤ batchSize) :
    ∀ chunk ∈ chunksOf batchSize l, chunk ≠ [] ∧ chunk.length ≤ batchSize := by
  induction l using chunksOf.induct batchSize with
  | case1 =>
    intro chunk hchunk
    simp [chunksOf] at hchunk
  | case2 a l ih =>
    intro chunk hchunk
    rw [chunksOf] at hchunk
    rcases List.mem_cons.mp hchunk with rfl | hchunk
    · refine ⟨by simp, ?_⟩
      have := List.length_take_le (batchSize - 1) l
      simp only [List.length_cons]
      have h2 : (List.take (batchSize - 1) l).length ≤ batchSize - 1 :=
        (List.length_take (batchSize - 1) l) ▸ min_le_left _ _
      omega
    · exact ih chunk hchunk

/-- Loop invariant of `createSmartBatches`: completed batches are
non-empty and within `batchSize`; the current batch is within
`batchSize`; the processed groups flatten to the completed batches plus
the current batch. -/
def SmartInv (batchSize : ℕ) (s : SmartBatchState)
    (seen : List (List CandidateMessage)) : Prop :=
  (∀ b ∈ s.batches, b ≠ [] ∧ b.length ≤ batchSize) ∧
  s.currentBatch.length ≤ batchSize ∧
  s.batches.flatten ++ s.currentBatch = seen.flatten

theorem smartBatchStep_inv (batchSize : ℕ) (hb : 1 ≤ batchSize)
    (s : SmartBatchState) (group : List CandidateMessage)
    (seen : List (List CandidateMessage)) (hinv : SmartInv batchSize s seen) :
    SmartInv batchSize (smartBatchStep batchSize s group) (seen ++ [group]) := by
  obtain ⟨hbs, hcur, hj⟩ := hinv
  have hflushed : ∀ b ∈ (if s.currentBatch.length ≠ 0 then s.batches ++ [s.currentBatch]
      else s.batches), b ≠ [] ∧ b.length ≤ batchSize := by
    by_cases hc : s.currentBatch.length ≠ 0
    · rw [if_pos hc]
      intro b hbmem
      rcases List.mem_append.mp hbmem with hbmem | hbmem
      · exact hbs b hbmem
      · rcases List.mem_singleton.mp hbmem with rfl
        exact ⟨fun hnil => hc (by simp [hnil]), hcur⟩
    · rw [if_neg hc]
      exact hbs
  have hflushed_flatten : (if s.currentBatch.length ≠ 0 then s.batches ++ [s.currentBatch]
      else s.batches).flatten = s.batches.flatten ++ s.currentBatch := by
    by_cases hc : s.currentBatch.length ≠ 0
    · rw [if_pos hc]; simp
    · rw [if_neg hc]
      simp only [ne_eq, not_not, List.length_eq_zero] at hc
      simp [hc]
  by_cases hover : batchSize < s.currentBatch.length + group.length
  · by_cases hbig : batchSize < group.length
    · have hstep : smartBatchStep batchSize s group =
          ⟨(if s.currentBatch.length ≠ 0 then s.batches ++ [s.currentBatch] else s.batches) ++
            chunksOf batchSize group, []⟩ := by
        simp only [smartBatchStep, if_pos hover, if_pos hbig]
      rw [hstep]
      refine ⟨?_, by simp [hb], ?_⟩
      · intro b hbmem
        rcases List.mem_append.mp hbmem with hbmem | hbmem
        · exact hflushed b hbmem
        · exact chunksOf_mem batchSize group hb b hbmem
      · dsimp only
        simp only [List.flatten_append, hflushed_flatten, chunksOf_flatten, List.append_nil,
          List.flatten_cons, List.flatten_nil]
        rw [← hj]
    · have hstep : smartBatchStep batchSize s group =
          ⟨if s.currentBatch.length ≠ 0 then s.batches ++ [s.currentBatch] else s.batches,
            group⟩ := by
        simp only [smartBatchStep, if_pos hover, if_neg hbig]
      rw [hstep]
      refine ⟨hflushed, not_lt.mp hbig, ?_⟩
      dsimp only
      simp only [hflushed_flatten, List.flatten_append, List.flatten_cons, List.flatten_nil,
        List.append_nil]
      rw [← hj]
  · have hstep : smartBatchStep batchSize s group = ⟨s.batches, s.currentBatch ++ group⟩ := by
      simp only [smartBatchStep, if_neg hover]
    rw [hstep]
    refine ⟨hbs, ?_, ?_⟩
    · dsimp only
      simp only [List.length_append]
      omega
    · dsimp only
      simp only [List.flatten_append, List.flatten_cons, List.flatten_nil, List.append_nil]
      rw [← hj]
      simp [List.append_assoc]

theorem smartFold_inv (batchSize : ℕ) (hb : 1 ≤ batchSize)
    (gs : List (List CandidateMessage)) :
    ∀ (s : SmartBatchState) (seen : List (List CandidateMessage)),
      SmartInv batchSize s seen →
      SmartInv batchSize (gs.foldl (smartBatchStep batchSize) s) (seen ++ gs) := by
  induction gs with
  | nil => intro s seen h; simpa using h
  | cons g gs ih =>
    intro s seen h
    have h' := smartBatchStep_inv batchSize hb s g seen h
    have := ih (smartBatchStep batchSize s g) (seen ++ [g]) h'
    simpa [List.append_assoc] using this

theorem createSmartBatches_props (candidates : List CandidateMessage) (batchSize : ℕ)
    (proximityGap : ℤ) (hb : 1 ≤ batchSize) :
    (∀ b ∈ createSmartBatches candidates batchSize proximityGap,
      b ≠ [] ∧ b.length ≤ batchSize) ∧
    List.Perm (createSmartBatches candidates batchSize proximityGap).flatten candidates := by
  by_cases hempty : candidates.isEmpty = true
  · have : candidates = [] := List.isEmpty_iff.mp hempty
    subst this
    constructor
    · intro b hbmem
      simp [createSmartBatches] at hbmem
    · simp [createSmartBatches]
  · have hinv0 : SmartInv batchSize ⟨[], []⟩ [] := by
      refine ⟨?_, ?_, ?_⟩ <;> simp
    have hinv := smartFold_inv batchSize hb
      (groupCandidatesByProximity candidates proximityGap) _ [] hinv0
    simp only [List.nil_append] at hinv
    obtain ⟨hbs, hcur, hj⟩ := hinv
    have hflat : (groupCandidatesByProximity candidates proximityGap).flatten =
        sortByMessageId candidates :=
      (groupCandidatesByProximity_props candidates proximityGap).1
    unfold createSmartBatches
    rw [if_neg hempty]
    by_cases hcurnil :
        ((groupCandidatesByProximity candidates proximityGap).foldl
          (smartBatchStep batchSize) ⟨[], []⟩).currentBatch.length ≠ 0
    · rw [if_pos hcurnil]
      constructor
      · intro b hbmem
        rcases List.mem_append.mp hbmem with hbmem | hbmem
        · exact hbs b hbmem
        · rcases List.mem_singleton.mp hbmem with rfl
          exact ⟨fun hnil => hcurnil (by simp [hnil]), hcur⟩
      · have : (((groupCandidatesByProximity candidates proximityGap).foldl
            (smartBatchStep batchSize) ⟨[], []⟩).batches ++
            [((groupCandidatesByProximity candidates proximityGap).foldl
              (smartBatchStep batchSize) ⟨[], []⟩).currentBatch]).flatten =
            sortByMessageId candidates := by
          simp only [List.flatten_append, List.flatten_cons, List.flatten_nil, List.append_nil]
          rw [hj, hflat]
        rw [this]
        exact sortByMessageId_perm candidates
    · rw [if_neg hcurnil]
      constructor
      · intro b hbmem
        exact hbs b hbmem
      · simp only [ne_eq, not_not, List.length_eq_zero] at hcurnil
        rw [hcurnil, List.append_nil] at hj
        rw [hj, hflat]
        exact sortByMessageId_perm candidates

/-- C5: for every candidate list, proximity gap and batch size `≥ 1`,
the concatenation of the proximity groups, and the concatenation of the
smart batches, carry exactly the multiset of message ids of the input. -/
theorem grouping_preserves_ids (candidates : List CandidateMessage) (proximityGap : ℤ)
    (batchSize : ℕ) (hb : 1 ≤ batchSize) :
    List.Perm
        ((groupCandidatesByProximity candidates proximityGap).flatten.map
          CandidateMessage.messageId)
        (candidates.map CandidateMessage.messageId) ∧
    List.Perm
        ((createSmartBatches candidates batchSize proximityGap).flatten.map
          CandidateMessage.messageId)
        (candidates.map CandidateMessage.messageId) := by
  constructor
  · refine List.Perm.map _ ?_
    rw [(groupCandidatesByProximity_props candidates proximityGap).1]
    exact sortByMessageId_perm candidates
  · exact ((createSmartBatches_props candidates batchSize proximityGap hb).2).map _

/-- C5 witness: ids 1, 2, 20 with gap 5 and batch size 2 group as
`[[1, 2], [20]]`; both flattenings preserve the id multiset. -/
theorem grouping_preserves_ids_witness :
    List.Perm
        ((groupCandidatesByProximity
          [cEx 1 9 .suggestion, cEx 2 8 .suggestion, cEx 20 7 .suggestion] 5).flatten.map
          CandidateMessage.messageId)
        ([cEx 1 9 .suggestion, cEx 2 8 .suggestion, cEx 20 7 .suggestion].map
          CandidateMessage.messageId) ∧
    List.Perm
        ((createSmartBatches
          [cEx 1 9 .suggestion, cEx 2 8 .suggestion, cEx 20 7 .suggestion] 2 5).flatten.map
          CandidateMessage.messageId)
        ([cEx 1 9 .suggestion, cEx 2 8 .suggestion, cEx 20 7 .suggestion].map
          CandidateMessage.messageId) ∧
    groupCandidatesByProximity
        [cEx 1 9 .suggestion, cEx 2 8 .suggestion, cEx 20 7 .suggestion] 5 =
      [[cEx 1 9 .suggestion, cEx 2 8 .suggestion], [cEx 20 7 .suggestion]] :=
  ⟨(grouping_preserves_ids
      [cEx 1 9 .suggestion, cEx 2 8 .suggestion, cEx 20 7 .suggestion] 5 2 (by decide)).1,
   (grouping_preserves_ids
      [cEx 1 9 .suggestion, cEx 2 8 .suggestion, cEx 20 7 .suggestion] 5 2 (by decide)).2,
   by decide⟩

/-- C6: `createSmartBatches` is a total function (hence terminates) and,
for `batchSize ≥ 1`, every returned batch carries between 1 and
`batchSize` candidates; an empty candidate list yields no batches. -/
theorem createSmartBatches_sizes (candidates : List CandidateMessage) (batchSize : ℕ)
    (proximityGap : ℤ) (hb : 1 ≤ batchSize) :
    (∀ b ∈ createSmartBatches candidates batchSize proximityGap,
      1 ≤ b.length ∧ b.length ≤ batchSize) ∧
    (candidates = [] → createSmartBatches candidates batchSize proximityGap = []) := by
  constructor
  · intro b hbmem
    have h := (createSmartBatches_props candidates batchSize proximityGap hb).1 b hbmem
    exact ⟨List.length_pos.mpr h.1, h.2⟩
  · intro h
    subst h
    simp [createSmartBatches]

/-- C6 witness: the concrete batching `[[1, 2], [20]]` at batch size 2
has batch lengths within `[1, 2]`, and the empty list gives no batches. -/
theorem createSmartBatches_sizes_witness :
    ([cEx 1 9 .suggestion, cEx 2 8 .suggestion] ∈
        createSmartBatches
          [cEx 1 9 .suggestion, cEx 2 8 .suggestion, cEx 20 7 .suggestion] 2 5) ∧
    1 ≤ ([cEx 1 9 .suggestion, cEx 2 8 .suggestion] : List CandidateMessage).length ∧
    ([cEx 1 9 .suggestion, cEx 2 8 .suggestion] : List CandidateMessage).length ≤ 2 ∧
    createSmartBatches ([] : List CandidateMessage) 2 5 = [] :=
  ⟨by decide,
   ((createSmartBatches_sizes
      [cEx 1 9 .suggestion, cEx 2 8 .suggestion, cEx 20 7 .suggestion] 2 5 (by decide)).1 _
      (by decide)).1,
   ((createSmartBatches_sizes
      [cEx 1 9 .suggestion, cEx 2 8 .suggestion, cEx 20 7 .suggestion] 2 5 (by decide)).1 _
      (by decide)).2,
   (createSmartBatches_sizes ([] : List CandidateMessage) 2 5 (by decide)).2 rfl⟩

/-! ## Candidate merging

Two merge loops exist in the source: the `Map`-based merge of
`extractCandidates` (`src/extraction/index.ts`, lines 180–196), which
replaces an existing entry when a semantic candidate is strictly more
confident, and the seen-set merge of `mergeAndDeduplicateCandidates`
(`src/cli/steps/filter.ts`, lines 48–70), which keeps the first
candidate seen for a message id unconditionally.  A JS `Map` iterates in
key-insertion order and `set` on an existing key updates the entry in
place, which the association-list model below reproduces. -/

/-- JS `Map.prototype.set`: replace in place when the key is present,
append otherwise. -/
def mapSet (m : List (ℤ × CandidateMessage)) (k : ℤ) (v : CandidateMessage) :
    List (ℤ × CandidateMessage) :=
  if m.any (fun q => q.1 = k) then
    m.map (fun q => if q.1 = k then (k, v) else q)
  else
    m ++ [(k, v)]

/-- JS `Map.prototype.get` (`undefined` becomes `none`). -/
def mapGet (m : List (ℤ × CandidateMessage)) (k : ℤ) : Option CandidateMessage :=
  (m.find? (fun q => q.1 = k)).map Prod.snd

/-- The semantic insertion step of `extractCandidates`: insert when the
id is absent; replace only when the semantic candidate's confidence is
strictly greater. -/
def semanticStep (m : List (ℤ × CandidateMessage)) (c : CandidateMessage) :
    List (ℤ × CandidateMessage) :=
  match mapGet m c.messageId with
  | none => mapSet m c.messageId c
  | some existing =>
    if existing.confidence < c.confidence then mapSet m c.messageId c else m

/-- The `messageId`-keyed merge of `extractCandidates`
(`src/extraction/index.ts`, lines 180–196): heuristic candidates are
inserted first, semantic candidates after, and the merged stream is the
map's values in insertion order. -/
def extractionMerge (heuristic semantic : List CandidateMessage) : List CandidateMessage :=
  let m1 := heuristic.foldl (fun m c => mapSet m c.messageId c) []
  let m2 := semantic.foldl semanticStep m1
  m2.map Prod.snd

/-- The seen-set merge of `mergeAndDeduplicateCandidates`
(`src/cli/steps/filter.ts`, lines 53–70): heuristics first, then
embeddings, keeping only the first candidate per message id. -/
def filterStepMerge (heuristics embeddings : List CandidateMessage) :
    List CandidateMessage :=
  let step := fun (acc : List ℤ × List CandidateMessage) (c : CandidateMessage) =>
    if c.messageId ∈ acc.1 then acc else (acc.1 ++ [c.messageId], acc.2 ++ [c])
  (embeddings.foldl step (heuristics.foldl step ([], []))).2

/-! ## Spec-side description of the merge (claim wording) -/

/-- Spec-side replacement rule: the heuristic candidate `h`, replaced by
the matching semantic candidate exactly when the latter's confidence is
strictly greater (ties keep `h`). -/
def specReplace (semantic : List CandidateMessage) (h : CandidateMessage) :
    CandidateMessage :=
  match semantic.find? (fun s => s.messageId = h.messageId) with
  | some s => if h.confidence < s.confidence then s else h
  | none => h

/-- Spec-side: semantic candidates whose message id is not claimed by
any heuristic candidate. -/
def newFromSemantic (heuristic semantic : List CandidateMessage) :
    List CandidateMessage :=
  semantic.filter (fun s => ! heuristic.any (fun h => h.messageId = s.messageId))

/-! ### Association-list lemmas -/

theorem mapGet_append (m₁ m₂ : List (ℤ × CandidateMessage)) (k : ℤ) :
    mapGet (m₁ ++ m₂) k = (mapGet m₁ k).or (mapGet m₂ k) := by
  unfold mapGet
  rw [List.find?_append]
  cases m₁.find? (fun q => q.1 = k) <;> simp

theorem mapGet_eq_none (m : List (ℤ × CandidateMessage)) (k : ℤ)
    (h : ∀ q ∈ m, q.1 ≠ k) : mapGet m k = none := by
  unfold mapGet
  rw [List.find?_eq_none.mpr]
  · rfl
  · intro q hq
    simpa using h q hq

theorem any_key_eq_false (m : List (ℤ × CandidateMessage)) (k : ℤ)
    (h : ∀ q ∈ m, q.1 ≠ k) : m.any (fun q => q.1 = k) = false := by
  rw [List.any_eq_false]
  intro q hq
  simpa using h q hq

theorem mapSet_absent (m : List (ℤ × CandidateMessage)) (k : ℤ) (v : CandidateMessage)
    (h : ∀ q ∈ m, q.1 ≠ k) : mapSet m k v = m ++ [(k, v)] := by
  unfold mapSet
  rw [if_neg]
  rw [any_key_eq_false m k h]
  simp

theorem specReplace_append_ne (p : List CandidateMessage) (c h : CandidateMessage)
    (hne : c.messageId ≠ h.messageId) :
    specReplace (p ++ [c]) h = specReplace p h := by
  unfold specReplace
  rw [List.find?_append]
  cases hf : p.find? (fun s => decide (s.messageId = h.messageId)) with
  | some s => simp
  | none => simp [hne]

theorem specReplace_append_eq (p : List CandidateMessage) (c h : CandidateMessage)
    (heq : c.messageId = h.messageId)
    (hp : p.find? (fun s => decide (s.messageId = h.messageId)) = none) :
    specReplace (p ++ [c]) h = if h.confidence < c.confidence then c else h := by
  unfold specReplace
  rw [List.find?_append, hp]
  simp [heq]

theorem newFromSemantic_append_mem (heur p : List CandidateMessage) (c : CandidateMessage)
    (hin : heur.any (fun h => h.messageId = c.messageId) = true) :
    newFromSemantic heur (p ++ [c]) = newFromSemantic heur p := by
  unfold newFromSemantic
  rw [List.filter_append]
  simp [hin]

theorem newFromSemantic_append_not_mem (heur p : List CandidateMessage)
    (c : CandidateMessage)
    (hin : heur.any (fun h => h.messageId = c.messageId) = false) :
    newFromSemantic heur (p ++ [c]) = newFromSemantic heur p ++ [c] := by
  unfold newFromSemantic
  rw [List.filter_append]
  simp [hin]

/-- The association list built by the merge loop of `extractCandidates`
after the heuristic pass and a processed prefix of the semantic pass:
heuristic entries (possibly replaced) in order, then the semantic
newcomers in order. -/
def mergedAssoc (heuristic processed : List CandidateMessage) :
    List (ℤ × CandidateMessage) :=
  heuristic.map (fun h => (h.messageId, specReplace processed h)) ++
    (newFromSemantic heuristic processed).map (fun v => (v.messageId, v))

theorem find?_map_keyed (f : CandidateMessage → CandidateMessage)
    (heur : List CandidateMessage) (k : ℤ) :
    (heur.map (fun h => (h.messageId, f h))).find? (fun q => q.1 = k) =
      (heur.find? (fun h => h.messageId = k)).map (fun h => (h.messageId, f h)) := by
  induction heur with
  | nil => rfl
  | cons h t ih =>
    by_cases hk : h.messageId = k
    · simp [List.find?_cons, hk]
    · simp only [List.map_cons, List.find?_cons]
      have hd : decide (h.messageId = k) = false := by simp [hk]
      rw [hd]
      exact ih

theorem mapGet_first (f : CandidateMessage → CandidateMessage)
    (heur : List CandidateMessage) (k : ℤ) :
    mapGet (heur.map (fun h => (h.messageId, f h))) k =
      (heur.find? (fun h => h.messageId = k)).map f := by
  unfold mapGet
  rw [find?_map_keyed]
  cases heur.find? (fun h => decide (h.messageId = k)) <;> simp

theorem semanticStep_mergedAssoc (heur p : List CandidateMessage) (c : CandidateMessage)
    (hh : (heur.map CandidateMessage.messageId).Nodup)
    (hcp : c.messageId ∉ p.map CandidateMessage.messageId) :
    semanticStep (mergedAssoc heur p) c = mergedAssoc heur (p ++ [c]) := by
  have hpfind : p.find? (fun s => decide (s.messageId = c.messageId)) = none := by
    rw [List.find?_eq_none]
    intro s hs
    simp only [decide_eq_true_eq]
    intro heq
    exact hcp (List.mem_map.mpr ⟨s, hs, heq⟩)
  have hsecond_keys :
      ∀ q ∈ (newFromSemantic heur p).map (fun v => (v.messageId, v)),
        q.1 ≠ c.messageId := by
    intro q hq
    obtain ⟨v, hv, rfl⟩ := List.mem_map.mp hq
    intro heq
    exact hcp (List.mem_map.mpr ⟨v, List.mem_of_mem_filter hv, heq⟩)
  by_cases hin : heur.any (fun h => h.messageId = c.messageId) = true
  · cases hfind : heur.find? (fun h => decide (h.messageId = c.messageId)) with
    | none =>
      exfalso
      obtain ⟨h₀, hmem, hid⟩ := List.any_eq_true.mp hin
      have := List.find?_eq_none.mp hfind h₀ hmem
      exact this hid
    | some h₁ =>
      have hh₁mem : h₁ ∈ heur := List.mem_of_find?_eq_some hfind
      have hh₁id : h₁.messageId = c.messageId := by
        simpa using List.find?_some hfind
      have hpfind₁ : p.find? (fun s => decide (s.messageId = h₁.messageId)) = none := by
        rw [hh₁id]
        exact hpfind
      have hget : mapGet (mergedAssoc heur p) c.messageId = some (specReplace p h₁) := by
        unfold mergedAssoc
        rw [mapGet_append, mapGet_first, hfind]
        simp
      have hrepl : specReplace p h₁ = h₁ := by
        unfold specReplace
        rw [hpfind₁]
      have hanykey : (mergedAssoc heur p).any (fun q => q.1 = c.messageId) = true := by
        rw [List.any_eq_true]
        refine ⟨(h₁.messageId, specReplace p h₁), ?_, by simpa using hh₁id⟩
        unfold mergedAssoc
        exact List.mem_append_left _ (List.mem_map.mpr ⟨h₁, hh₁mem, rfl⟩)
      unfold semanticStep
      rw [hget, hrepl]
      show (if h₁.confidence < c.confidence then
          mapSet (mergedAssoc heur p) c.messageId c else mergedAssoc heur p) =
        mergedAssoc heur (p ++ [c])
      by_cases hlt : h₁.confidence < c.confidence
      · rw [if_pos hlt]
        unfold mapSet
        rw [if_pos hanykey]
        unfold mergedAssoc
        rw [List.map_append, List.map_map, List.map_map,
          newFromSemantic_append_mem heur p c hin]
        congr 1
        · apply List.map_congr_left
          intro h hmem
          by_cases hid : h.messageId = c.messageId
          · have hhe : h = h₁ :=
              List.inj_on_of_nodup_map hh hmem hh₁mem (hid.trans hh₁id.symm)
            have hconf : h.confidence < c.confidence := by rw [hhe]; exact hlt
            have hrw : specReplace (p ++ [c]) h = c := by
              rw [specReplace_append_eq p c h hid.symm (by rw [hid]; exact hpfind)]
              rw [if_pos hconf]
            simp only [Function.comp_apply, hrw]
            rw [if_pos (by simpa using hid)]
            rw [hid]
          · have hrw : specReplace (p ++ [c]) h = specReplace p h :=
              specReplace_append_ne p c h (fun heq => hid heq.symm)
            simp only [Function.comp_apply, hrw]
            rw [if_neg (by simpa using hid)]
        · apply List.map_congr_left
          intro v hv
          have hne : v.messageId ≠ c.messageId := by
            intro heq
            exact hcp (List.mem_map.mpr ⟨v, List.mem_of_mem_filter hv, heq⟩)
          simp only [Function.comp_apply]
          rw [if_neg (by simpa using hne)]
      · rw [if_neg hlt]
        unfold mergedAssoc
        rw [newFromSemantic_append_mem heur p c hin]
        congr 1
        apply List.map_congr_left
        intro h hmem
        by_cases hid : h.messageId = c.messageId
        · have hhe : h = h₁ :=
            List.inj_on_of_nodup_map hh hmem hh₁mem (hid.trans hh₁id.symm)
          have hl : specReplace p h = h := by
            unfold specReplace
            rw [hhe, hpfind₁]
          have hr : specReplace (p ++ [c]) h = h := by
            rw [specReplace_append_eq p c h hid.symm (by rw [hid]; exact hpfind)]
            rw [if_neg (hhe ▸ hlt)]
          rw [hl, hr]
        · rw [specReplace_append_ne p c h (fun heq => hid heq.symm)]
  · have hin' : heur.any (fun h => h.messageId = c.messageId) = false :=
      Bool.not_eq_true _ ▸ eq_false_of_ne_true hin
    have hkeys : ∀ q ∈ mergedAssoc heur p, q.1 ≠ c.messageId := by
      intro q hq
      unfold mergedAssoc at hq
      rcases List.mem_append.mp hq with hq | hq
      · obtain ⟨h, hmem, rfl⟩ := List.mem_map.mp hq
        have hany := List.any_eq_false.mp hin' h hmem
        simp only [decide_eq_true_eq] at hany
        simpa using hany
      · exact hsecond_keys q hq
    have hget : mapGet (mergedAssoc heur p) c.messageId = none :=
      mapGet_eq_none _ _ hkeys
    unfold semanticStep
    rw [hget, mapSet_absent _ _ _ hkeys]
    unfold mergedAssoc
    rw [newFromSemantic_append_not_mem heur p c hin']
    have hfirst :
        heur.map (fun h => (h.messageId, specReplace (p ++ [c]) h)) =
          heur.map (fun h => (h.messageId, specReplace p h)) := by
      apply List.map_congr_left
      intro h hmem
      have hne : c.messageId ≠ h.messageId := by
        have hany := List.any_eq_false.mp hin' h hmem
        simp only [decide_eq_true_eq] at hany
        exact fun heq => hany heq.symm
      rw [specReplace_append_ne p c h hne]
    rw [hfirst, List.map_append, List.append_assoc]
    rfl

theorem foldl_mapSet_nodup (l : List CandidateMessage) :
    ∀ (m : List (ℤ × CandidateMessage)),
      (m.map Prod.fst ++ l.map CandidateMessage.messageId).Nodup →
      l.foldl (fun m c => mapSet m c.messageId c) m =
        m ++ l.map (fun c => (c.messageId, c)) := by
  induction l with
  | nil => intro m _; simp
  | cons c t ih =>
    intro m hnd
    have hkeys : ∀ q ∈ m, q.1 ≠ c.messageId := by
      intro q hq heq
      have hd := List.disjoint_of_nodup_append hnd
      exact hd (List.mem_map.mpr ⟨q, hq, heq⟩) (by simp)
    have hnd' : ((m ++ [(c.messageId, c)]).map Prod.fst ++
        t.map CandidateMessage.messageId).Nodup := by
      have hre : (m ++ [(c.messageId, c)]).map Prod.fst ++
          t.map CandidateMessage.messageId =
          m.map Prod.fst ++ (c.messageId :: t.map CandidateMessage.messageId) := by
        simp
      rw [hre]
      simpa using hnd
    rw [List.foldl_cons, mapSet_absent m c.messageId c hkeys,
      ih (m ++ [(c.messageId, c)]) hnd']
    simp

theorem semanticFold_mergedAssoc (heur : List CandidateMessage)
    (hh : (heur.map CandidateMessage.messageId).Nodup) (rest : List CandidateMessage) :
    ∀ (p : List CandidateMessage),
      ((p ++ rest).map CandidateMessage.messageId).Nodup →
      rest.foldl semanticStep (mergedAssoc heur p) = mergedAssoc heur (p ++ rest) := by
  induction rest with
  | nil => intro p _; simp
  | cons c t ih =>
    intro p hnd
    have hcp : c.messageId ∉ p.map CandidateMessage.messageId := by
      intro hmem
      have hd := List.disjoint_of_nodup_append (by simpa using hnd)
      exact hd hmem (by simp)
    have hnd' : (((p ++ [c]) ++ t).map CandidateMessage.messageId).Nodup := by
      simpa [List.append_assoc] using hnd
    rw [List.foldl_cons, semanticStep_mergedAssoc heur p c hh hcp, ih (p ++ [c]) hnd']
    simp

theorem seenSetFold (l : List CandidateMessage) :
    ∀ (seen : List ℤ) (out : List CandidateMessage),
      (l.map CandidateMessage.messageId).Nodup →
      l.foldl (fun acc c => if c.messageId ∈ acc.1 then acc
          else (acc.1 ++ [c.messageId], acc.2 ++ [c])) (seen, out) =
        (seen ++ (l.filter (fun c => ! decide (c.messageId ∈ seen))).map
            CandidateMessage.messageId,
          out ++ l.filter (fun c => ! decide (c.messageId ∈ seen))) := by
  induction l with
  | nil => intro seen out _; simp
  | cons c t ih =>
    intro seen out hnd
    have hnds : (c.messageId :: t.map CandidateMessage.messageId).Nodup := by simpa using hnd
    have hndt : (t.map CandidateMessage.messageId).Nodup := (List.nodup_cons.mp hnds).2
    have hcid : c.messageId ∉ t.map CandidateMessage.messageId := (List.nodup_cons.mp hnds).1
    by_cases hmem : c.messageId ∈ seen
    · rw [List.foldl_cons, if_pos (show c.messageId ∈ (seen, out).1 from hmem),
        ih seen out hndt]
      have hfil : (c :: t).filter (fun x => ! decide (x.messageId ∈ seen)) =
          t.filter (fun x => ! decide (x.messageId ∈ seen)) := by
        simp [List.filter_cons, hmem]
      rw [hfil]
    · rw [List.foldl_cons, if_neg (show ¬ c.messageId ∈ (seen, out).1 from hmem),
        ih (seen ++ [c.messageId]) (out ++ [c]) hndt]
      have hfilt : t.filter (fun x => ! decide (x.messageId ∈ seen ++ [c.messageId])) =
          t.filter (fun x => ! decide (x.messageId ∈ seen)) := by
        apply List.filter_congr
        intro x hx
        have hne : x.messageId ≠ c.messageId := by
          intro heq
          exact hcid (heq ▸ List.mem_map.mpr ⟨x, hx, rfl⟩)
        simp [List.mem_append, hne]
      rw [hfilt]
      have hfilc : (c :: t).filter (fun x => ! decide (x.messageId ∈ seen)) =
          c :: t.filter (fun x => ! decide (x.messageId ∈ seen)) := by
        simp [List.filter_cons, hmem]
      rw [hfilc]
      simp [List.append_assoc]

/-- C1 (amended): with distinct message ids per stream, the
`extractCandidates` merge inserts heuristics first and replaces an entry
by a semantic candidate exactly when the semantic confidence is strictly
greater (ties keep the heuristic), while the filter-step merge
(`mergeAndDeduplicateCandidates`) keeps the heuristic entry
unconditionally. -/
theorem mergeByMessageId_spec (heur sem : List CandidateMessage)
    (hh : (heur.map CandidateMessage.messageId).Nodup)
    (hs : (sem.map CandidateMessage.messageId).Nodup) :
    extractionMerge heur sem =
        heur.map (specReplace sem) ++ newFromSemantic heur sem ∧
    filterStepMerge heur sem = heur ++ newFromSemantic heur sem := by
  constructor
  · show (sem.foldl semanticStep
        (heur.foldl (fun m c => mapSet m c.messageId c) [])).map Prod.snd = _
    have hm1 : heur.foldl (fun m c => mapSet m c.messageId c) [] =
        heur.map (fun c => (c.messageId, c)) := by
      have := foldl_mapSet_nodup heur [] (by simpa using hh)
      simpa using this
    have hm1' : heur.map (fun c => (c.messageId, c)) = mergedAssoc heur [] := by
      unfold mergedAssoc newFromSemantic
      simp [specReplace]
    rw [hm1, hm1', semanticFold_mergedAssoc heur hh sem [] (by simpa using hs)]
    simp only [List.nil_append]
    unfold mergedAssoc
    rw [List.map_append, List.map_map, List.map_map]
    congr 1
    have h1 : (newFromSemantic heur sem).map (Prod.snd ∘ fun v => (v.messageId, v)) =
        (newFromSemantic heur sem).map id := List.map_congr_left (fun a _ => rfl)
    rw [h1, List.map_id]
  · show (sem.foldl _ (heur.foldl _ ([], []))).2 = _
    rw [seenSetFold heur [] [] hh]
    have hfh : heur.filter (fun c => ! decide (c.messageId ∈ ([] : List ℤ))) = heur :=
      List.filter_eq_self.mpr (fun a _ => by simp)
    rw [hfh]
    simp only [List.nil_append]
    rw [seenSetFold sem (heur.map CandidateMessage.messageId) heur hs]
    have hfil : sem.filter
        (fun c => ! decide (c.messageId ∈ heur.map CandidateMessage.messageId)) =
        newFromSemantic heur sem := by
      unfold newFromSemantic
      apply List.filter_congr
      intro s _
      congr 1
      rw [Bool.eq_iff_iff]
      simp [List.mem_map, List.any_eq_true]
    rw [hfil]

/-- A semantic-source candidate used to instantiate the merge theorems. -/
def sEx (id : ℤ) (conf : ℚ) : CandidateMessage :=
  { messageId := id, content := "m", sender := "u", timestamp := 0,
    source := CandidateSource.semantic 1 "q", confidence := conf,
    candidateType := CandidateType.suggestion }

/-- C1 counterexample: a semantic candidate with strictly greater
confidence (9 > 5) for an already-present message id does not replace
the heuristic entry in the filter-step merge, though the
`extractCandidates` merge does replace it. -/
theorem filterStepMerge_ignores_confidence :
    (cEx 1 5 .suggestion).confidence < (sEx 1 9).confidence ∧
    filterStepMerge [cEx 1 5 .suggestion] [sEx 1 9] = [cEx 1 5 .suggestion] ∧
    extractionMerge [cEx 1 5 .suggestion] [sEx 1 9] = [sEx 1 9] ∧
    filterStepMerge [cEx 1 5 .suggestion] [sEx 1 9] ≠
      extractionMerge [cEx 1 5 .suggestion] [sEx 1 9] :=
  ⟨by decide, by decide, by decide, by decide⟩

/-- C1 witness: the amended characterisation applied to one heuristic
and one semantic candidate sharing id 1; a strictly more confident
semantic candidate replaces the entry in `extractionMerge`, an
equal-confidence one is dropped (tie keeps the heuristic). -/
theorem mergeByMessageId_spec_witness :
    extractionMerge [cEx 1 5 .suggestion] [sEx 1 9] =
        [cEx 1 5 .suggestion].map (specReplace [sEx 1 9]) ++
          newFromSemantic [cEx 1 5 .suggestion] [sEx 1 9] ∧
    filterStepMerge [cEx 1 5 .suggestion] [sEx 1 9] =
        [cEx 1 5 .suggestion] ++ newFromSemantic [cEx 1 5 .suggestion] [sEx 1 9] ∧
    extractionMerge [cEx 1 5 .suggestion] [sEx 1 5] = [cEx 1 5 .suggestion] :=
  ⟨(mergeByMessageId_spec [cEx 1 5 .suggestion] [sEx 1 9] (by decide) (by decide)).1,
   (mergeByMessageId_spec [cEx 1 5 .suggestion] [sEx 1 9] (by decide) (by decide)).2,
   by decide⟩

/-! ## Consolidation against an empty semantic stream (claim C3) -/

/-- The consolidation composed by `extractCandidates`
(`src/extraction/index.ts`, lines 180–199): the `messageId`-keyed merge
followed by agreement deduplication. -/
def consolidateCandidates (heur sem : List CandidateMessage) (proximity : ℤ) :
    List CandidateMessage × ℕ :=
  deduplicateAgreements (extractionMerge heur sem) proximity

/-- C3 counterexample: a suggestion at id 1 and an agreement at id 2
consolidated against an empty semantic set with the default proximity 5:
the agreement is removed, so the result is not the input resorted. -/
theorem consolidate_empty_semantic_cex :
    consolidateCandidates [cEx 1 9 .suggestion, cEx 2 8 .agreement] [] 5 =
        ([cEx 1 9 .suggestion], 1) ∧
    ¬ List.Perm (consolidateCandidates [cEx 1 9 .suggestion, cEx 2 8 .agreement] [] 5).1
        [cEx 1 9 .suggestion, cEx 2 8 .agreement] :=
  ⟨by decide, fun hp => absurd hp.length_eq (by decide)⟩

/-- C3 (amended): consolidating a candidate set with pairwise-distinct
message ids against an empty semantic set with the default proximity 5
returns the set unchanged in content (a permutation, resorted by
descending confidence, zero removed) provided no agreement lies within
5 message ids of a suggestion; the id-1/id-2 counterexample shows the
proviso is necessary. -/
theorem consolidate_empty_semantic (heur : List CandidateMessage)
    (hh : (heur.map CandidateMessage.messageId).Nodup)
    (hfar : ∀ a ∈ heur, a.candidateType = .agreement →
      ∀ s ∈ heur, s.candidateType = .suggestion → 5 < |s.messageId - a.messageId|) :
    List.Perm (consolidateCandidates heur [] 5).1 heur ∧
    (consolidateCandidates heur [] 5).2 = 0 ∧
    ((consolidateCandidates heur [] 5).1).Sorted
      (fun a b => b.confidence ≤ a.confidence) := by
  have hmerge : extractionMerge heur [] = heur := by
    rw [(mergeByMessageId_spec heur [] hh (by simp)).1]
    have hid : heur.map (specReplace []) = heur := by
      calc heur.map (specReplace []) = heur.map id := List.map_congr_left (fun a _ => rfl)
        _ = heur := List.map_id heur
    rw [hid]
    simp [newFromSemantic]
  unfold consolidateCandidates
  rw [hmerge]
  obtain ⟨hperm, hcount, hsorted⟩ := (deduplicateAgreements_spec heur 5).2 (by norm_num)
  refine ⟨?_, ?_, hsorted⟩
  · refine hperm.trans (List.Perm.of_eq ?_)
    apply List.filter_eq_self.mpr
    intro c hc
    unfold keptByProximity
    cases hct : c.candidateType
    · simp [hct]
    · simp only [hct]
      have hany : heur.any (fun s =>
          decide (s.candidateType = CandidateType.suggestion) &&
            decide (|s.messageId - c.messageId| ≤ 5)) = false := by
        rw [List.any_eq_false]
        intro s hsmem
        by_cases hsugg : s.candidateType = CandidateType.suggestion
        · have := hfar c hc hct s hsmem hsugg
          simp [not_le.mpr this]
        · simp [hsugg]
      simp [hany]
  · rw [hcount]
    have hnil : heur.filter (removedByProximity heur 5) = [] := by
      rw [List.filter_eq_nil_iff]
      intro a ha
      unfold removedByProximity
      cases hct : a.candidateType
      · simp [hct]
      · have hany : heur.any (fun s =>
            decide (s.candidateType = CandidateType.suggestion) &&
              decide (|s.messageId - a.messageId| ≤ 5)) = false := by
          rw [List.any_eq_false]
          intro s hsmem
          by_cases hsugg : s.candidateType = CandidateType.suggestion
          · have := hfar a ha hct s hsmem hsugg
            simp [not_le.mpr this]
          · simp [hsugg]
        simp [hany]
    rw [hnil]
    rfl

/-- C3 witness: a suggestion at id 1 (confidence 7) and an agreement at
id 20 (confidence 8) are far apart, so consolidation against an empty
semantic set keeps both, resorted by descending confidence. -/
theorem consolidate_empty_semantic_witness :
    List.Perm (consolidateCandidates [cEx 1 7 .suggestion, cEx 20 8 .agreement] [] 5).1
        [cEx 1 7 .suggestion, cEx 20 8 .agreement] ∧
    (consolidateCandidates [cEx 1 7 .suggestion, cEx 20 8 .agreement] [] 5).2 = 0 ∧
    (consolidateCandidates [cEx 1 7 .suggestion, cEx 20 8 .agreement] [] 5).1 =
      [cEx 20 8 .agreement, cEx 1 7 .suggestion] :=
  ⟨(consolidate_empty_semantic _ (by decide) (by decide)).1,
   (consolidate_empty_semantic _ (by decide) (by decide)).2.1,
   by decide⟩

/-! ## Activity aggregation (`src/cli/aggregation.ts`)

The defining file of the `ClassifiedActivity` record and of
`formatLocation` (re-exported by `src/types`) is absent from the
repository snapshot; those two are modelled from the spec.  The
algorithm itself (`deduplicateActivities`, `shouldGroup`, `similarity`,
`levenshteinDistance`, `normalizeString`, `round`) follows
`src/cli/aggregation.ts`. -/

/-- A source message carried by a classified activity (spec §3:
"Carries one or more source Messages (sender, timestamp, text)"). -/
structure SourceMsg where
  sender : String
  timestamp : ℤ
  content : String
  deriving DecidableEq, Repr

/-- Modelled from the spec: the `ClassifiedActivity` record
(§3 — activity title, category, fun/interesting score pair, combined
score, optional normalized location, source messages); its defining
type file is absent from the snapshot, so only the fields read by
`src/cli/aggregation.ts` are modelled.  `location` is `none` for a
missing location. -/
structure ClassifiedActivity where
  activity : String
  category : String
  location : Option String
  funScore : ℚ
  interestingScore : ℚ
  score : ℚ
  messages : List SourceMsg
  deriving DecidableEq, Repr

/-- Modelled from the spec: `formatLocation` (imported by
`aggregation.ts` from `src/types`, absent from the snapshot) returns
the activity's normalized location string or `null` (§4.3 compares
"non-empty normalized location strings"). -/
def formatLocation (a : ClassifiedActivity) : Option String :=
  a.location

/-- `str.toLowerCase()` over the characters (kernel-reducible model of
the JS call). -/
def jsToLower (s : String) : String :=
  ⟨s.data.map Char.toLower⟩

/-- `str.trim()`: strip leading and trailing whitespace. -/
def jsTrim (s : String) : String :=
  ⟨(((s.data.dropWhile Char.isWhitespace).reverse.dropWhile Char.isWhitespace).reverse)⟩

/-- `str.replace(/\s+/g, ' ')`: collapse each whitespace run to one
space.  The boolean argument records whether the previous character was
whitespace. -/
def collapseWs : Bool → List Char → List Char
  | _, [] => []
  | prevWs, c :: cs =>
    if c.isWhitespace then
      if prevWs then collapseWs true cs
      else ' ' :: collapseWs true cs
    else c :: collapseWs false cs

/-- `normalizeString` (`src/cli/aggregation.ts`, lines 15–17):
lowercase, trim, collapse internal whitespace. -/
def normalizeString (s : String) : String :=
  ⟨collapseWs false (jsTrim (jsToLower s)).data⟩

/-- One row of the Levenshtein matrix from the previous row:
`go` walks the columns `j ≥ 1`, carrying `prev[j-1] :: prev[j] :: …`
and the value just computed (`row[j-1]`). -/
def levRowGo (bc : Char) : List Char → List ℕ → ℕ → List ℕ
  | [], _, _ => []
  | ac :: as', p :: p' :: ps, left =>
    let cost := if ac = bc then 0 else 1
    let v := min (p + cost) (min (left + 1) (p' + 1))
    v :: levRowGo bc as' (p' :: ps) v
  | _ :: _, _, _ => []

/-- Row `i` of the Levenshtein matrix (`matrix[i][0] = i`, then the
substitution/insertion/deletion minimum of the source loop). -/
def levRow (bc : Char) (la : List Char) (prev : List ℕ) (i : ℕ) : List ℕ :=
  i :: levRowGo bc la prev i

/-- `levenshteinDistance` (`src/cli/aggregation.ts`, lines 23–44): the
dynamic program of the source, one row per character of `b`, row 0
being `0, 1, …, a.length`; the distance is the last entry of the last
row. -/
def levenshteinDistance (a b : String) : ℕ :=
  let la := a.data
  let final := b.data.foldl
    (fun (acc : List ℕ × ℕ) bc => (levRow bc la acc.1 (acc.2 + 1), acc.2 + 1))
    (List.range (la.length + 1), 0)
  final.1.getLastD 0

/-- `similarity` (`src/cli/aggregation.ts`, lines 49–60). -/
def similarity (a b : String) : ℚ :=
  let normA := normalizeString a
  let normB := normalizeString b
  if normA = normB then 1
  else if normA.length = 0 ∨ normB.length = 0 then 0
  else 1 - (levenshteinDistance normA normB : ℚ) / (max normA.length normB.length : ℚ)

/-- `shouldGroup` (`src/cli/aggregation.ts`, lines 69–85): equal
non-empty normalized locations (JS truthiness makes an empty string
skip this check), else name similarity at least 0.8. -/
def shouldGroup (a b : ClassifiedActivity) : Bool :=
  (match formatLocation a, formatLocation b with
    | some la, some lb =>
      if la ≠ "" ∧ lb ≠ "" then decide (normalizeString la = normalizeString lb)
      else false
    | _, _ => false) ||
  decide ((8 : ℚ)/10 ≤ similarity a.activity b.activity)

/-- `Math.round`: round half towards positive infinity. -/
def jsRound (q : ℚ) : ℤ :=
  ⌊q + 1/2⌋

/-- `round` (`src/cli/aggregation.ts`, lines 90–93):
`Math.round(value * 10^decimals) / 10^decimals`. -/
def roundTo (value : ℚ) (decimals : ℕ) : ℚ :=
  let factor : ℚ := 10 ^ decimals
  (jsRound (value * factor) : ℚ) / factor

/-- Structural engine of the greedy grouping: the fuel argument only
bounds the recursion depth (the list shrinks by at least one element
per step, so `l.length` fuel always suffices). -/
def dedupGroupsAux : ℕ → List ClassifiedActivity →
    List (ClassifiedActivity × List ClassifiedActivity)
  | _, [] => []
  | 0, _ :: _ => []
  | n + 1, a :: rest =>
    (a, a :: rest.filter (fun b => shouldGroup a b)) ::
      dedupGroupsAux n (rest.filter (fun b => ! shouldGroup a b))

/-- The greedy single-pass grouping of `deduplicateActivities`: the
imperative `grouped` index set is rendered as head-plus-partition
recursion — the leader takes every later ungrouped activity matching
`shouldGroup`, and the loop continues on the rest.  Each group is
`(primary, matches)` with `matches` including the primary, as in the
source. -/
def dedupGroups (activities : List ClassifiedActivity) :
    List (ClassifiedActivity × List ClassifiedActivity) :=
  dedupGroupsAux activities.length activities

/-- The merge of one group (`src/cli/aggregation.ts`, lines 138–161):
a singleton group passes the primary through unchanged; otherwise the
messages are concatenated, the two scores become rounded means, and the
combined score is recomputed. -/
def mergeGroup (primary : ClassifiedActivity) (ms : List ClassifiedActivity) :
    ClassifiedActivity :=
  if ms.length = 1 then primary
  else
    let avgFunScore := roundTo ((ms.map (fun a => a.funScore)).sum / (ms.length : ℚ)) 2
    let avgInterestingScore :=
      roundTo ((ms.map (fun a => a.interestingScore)).sum / (ms.length : ℚ)) 2
    { primary with
      messages := (ms.map (fun a => a.messages)).flatten,
      funScore := avgFunScore,
      interestingScore := avgInterestingScore,
      score := roundTo (avgInterestingScore * 2 + avgFunScore) 1 }

/-- `deduplicateActivities` (`src/cli/aggregation.ts`, lines 106–165). -/
def deduplicateActivities (activities : List ClassifiedActivity) :
    List ClassifiedActivity :=
  (dedupGroups activities).map (fun g => mergeGroup g.1 g.2)

/-- C7: every merged group's `funScore` and `interestingScore` are the
rounded (2 dp) arithmetic means of the members' scores, the combined
score is `interestingScore*2 + funScore` rounded to 1 dp, the leader's
other fields survive unchanged, and a singleton group passes through
unchanged; the claim's scenario values (means 0.7 and 0.5, combined
1.7) are checked numerically. -/
theorem deduplicateActivities_scores (l : List ClassifiedActivity)
    (g : ClassifiedActivity × List ClassifiedActivity) (hg : g ∈ dedupGroups l) :
    mergeGroup g.1 g.2 ∈ deduplicateActivities l ∧
    (1 < g.2.length →
      (mergeGroup g.1 g.2).funScore =
        roundTo ((g.2.map (fun a => a.funScore)).sum / (g.2.length : ℚ)) 2 ∧
      (mergeGroup g.1 g.2).interestingScore =
        roundTo ((g.2.map (fun a => a.interestingScore)).sum / (g.2.length : ℚ)) 2 ∧
      (mergeGroup g.1 g.2).score =
        roundTo ((mergeGroup g.1 g.2).interestingScore * 2 +
          (mergeGroup g.1 g.2).funScore) 1 ∧
      (mergeGroup g.1 g.2).activity = g.1.activity ∧
      (mergeGroup g.1 g.2).category = g.1.category ∧
      (mergeGroup g.1 g.2).location = g.1.location ∧
      (mergeGroup g.1 g.2).messages = (g.2.map (fun a => a.messages)).flatten) ∧
    (g.2.length = 1 → mergeGroup g.1 g.2 = g.1) ∧
    roundTo (((8 : ℚ)/10 + 6/10 + 7/10) / 3) 2 = 7/10 ∧
    roundTo (((6 : ℚ)/10 + 4/10 + 5/10) / 3) 2 = 5/10 ∧
    roundTo ((5 : ℚ)/10 * 2 + 7/10) 1 = 17/10 := by
  refine ⟨List.mem_map.mpr ⟨g, hg, rfl⟩, ?_, ?_, ?_, ?_, ?_⟩
  · intro hlen
    have hne : ¬ g.2.length = 1 := by omega
    refine ⟨?_, ?_, ?_, ?_, ?_, ?_, ?_⟩ <;> simp [mergeGroup, hne]
  · intro hlen
    simp [mergeGroup, hlen]
  · simp only [roundTo, jsRound]
    norm_num
  · simp only [roundTo, jsRound]
    norm_num
  · simp only [roundTo, jsRound]
    norm_num

/-- A concrete activity at location "queenstown" used to instantiate the
aggregation theorems. -/
def aEx (name : String) (fs intr : ℚ) : ClassifiedActivity :=
  { activity := name, category := "other", location := some "queenstown",
    funScore := fs, interestingScore := intr, score := 0,
    messages := [⟨"u", 0, name⟩] }

/-- C7 witness: three same-location activities form one group; the
merged entry is in the output with the rounded-mean score shape, and a
singleton group passes through unchanged. -/
theorem deduplicateActivities_scores_witness :
    ((aEx "a" 8 6, [aEx "a" 8 6, aEx "b" 6 4, aEx "c" 7 5]) ∈
        dedupGroups [aEx "a" 8 6, aEx "b" 6 4, aEx "c" 7 5]) ∧
    mergeGroup (aEx "a" 8 6) [aEx "a" 8 6, aEx "b" 6 4, aEx "c" 7 5] ∈
      deduplicateActivities [aEx "a" 8 6, aEx "b" 6 4, aEx "c" 7 5] ∧
    (mergeGroup (aEx "a" 8 6) [aEx "a" 8 6, aEx "b" 6 4, aEx "c" 7 5]).funScore =
      roundTo (([aEx "a" 8 6, aEx "b" 6 4, aEx "c" 7 5].map (fun a => a.funScore)).sum /
        (([aEx "a" 8 6, aEx "b" 6 4, aEx "c" 7 5] : List ClassifiedActivity).length : ℚ)) 2 ∧
    mergeGroup (aEx "a" 8 6) [aEx "a" 8 6] = aEx "a" 8 6 :=
  ⟨by decide,
   (deduplicateActivities_scores [aEx "a" 8 6, aEx "b" 6 4, aEx "c" 7 5]
      (aEx "a" 8 6, [aEx "a" 8 6, aEx "b" 6 4, aEx "c" 7 5]) (by decide)).1,
   ((deduplicateActivities_scores [aEx "a" 8 6, aEx "b" 6 4, aEx "c" 7 5]
      (aEx "a" 8 6, [aEx "a" 8 6, aEx "b" 6 4, aEx "c" 7 5]) (by decide)).2.1
      (by decide)).1,
   (deduplicateActivities_scores [aEx "a" 8 6]
      (aEx "a" 8 6, [aEx "a" 8 6]) (by decide)).2.2.1 (by decide)⟩

/-! ## Extraction cache of the read step (`src/unnamed/part_009`)

File-system state is passed explicitly: the cache file is `none` when
`existsSync` is false, `some none` when it exists but fails to read or
parse, and `some (some entry)` when it parses to a `ContentCacheEntry`.
`fileContent` stands for the `readInputFile` result; the
`cacheExtraction` write is a store side effect that does not alter the
returned value. -/

/-- `InputMetadata` (`src/unnamed/part_009`): path, sanitized base name,
modification time in milliseconds, short hash. -/
structure InputMetadata where
  path : String
  baseName : String
  mtime : ℤ
  shortHash : String
  deriving DecidableEq, Repr

/-- `ContentCacheEntry` (`src/unnamed/part_009`). -/
structure ContentCacheEntry where
  content : String
  mtime : ℤ
  extractedAt : ℤ
  deriving DecidableEq, Repr

/-- `String.endsWith` over the characters (kernel-reducible model of
`filePath.endsWith('.zip')`). -/
def strEndsWith (s pat : String) : Bool :=
  pat.data.isSuffixOf s.data

/-- `getCachedExtraction` (`src/unnamed/part_009`, lines 152–172):
absent or unparseable cache files yield `null`; a parsed entry is
returned only when its recorded mtime equals the file's current
mtime. -/
def getCachedExtraction (metadata : InputMetadata)
    (cacheFile : Option (Option ContentCacheEntry)) : Option String :=
  match cacheFile with
  | none => none
  | some none => none
  | some (some entry) =>
    if entry.mtime ≠ metadata.mtime then none
    else some entry.content

/-- Result of `readInputFileWithCache`. -/
structure ReadResult where
  content : String
  fromCache : Bool
  deriving DecidableEq, Repr

/-- `readInputFileWithCache` (`src/unnamed/part_009`, lines 198–222):
consult the extraction cache only for zip files when the cache is not
skipped; fall back to reading (and re-extracting) the input. -/
def readInputFileWithCache (metadata : InputMetadata) (skipCache : Bool)
    (cacheFile : Option (Option ContentCacheEntry)) (fileContent : String) :
    ReadResult :=
  if strEndsWith metadata.path ".zip" && ! skipCache then
    match getCachedExtraction metadata cacheFile with
    | some cached => ⟨cached, true⟩
    | none => ⟨fileContent, false⟩
  else
    ⟨fileContent, false⟩

/-- C8: a cached extraction entry whose recorded mtime differs from the
file's current mtime is never reused — `getCachedExtraction` returns
`none` (as for a missing or unparseable entry), so
`readInputFileWithCache` re-reads the changed input instead of
returning prior cached content. -/
theorem cachedExtraction_mtime_guard (metadata : InputMetadata)
    (entry : ContentCacheEntry) (fileContent : String) (skipCache : Bool)
    (hmt : entry.mtime ≠ metadata.mtime) :
    getCachedExtraction metadata (some (some entry)) = none ∧
    getCachedExtraction metadata none = none ∧
    getCachedExtraction metadata (some none) = none ∧
    readInputFileWithCache metadata skipCache (some (some entry)) fileContent =
      ⟨fileContent, false⟩ := by
  have hget : getCachedExtraction metadata (some (some entry)) = none := by
    simp [getCachedExtraction, hmt]
  refine ⟨hget, rfl, rfl, ?_⟩
  unfold readInputFileWithCache
  by_cases hz : (strEndsWith metadata.path ".zip" && ! skipCache) = true
  · rw [if_pos hz, hget]
  · rw [if_neg hz]

/-- C8 witness: a zip input whose mtime moved from 99 to 100 ignores the
stale cache entry and re-reads, while a matching mtime does reuse the
cache (contrast case evaluated concretely). -/
theorem cachedExtraction_mtime_guard_witness :
    getCachedExtraction ⟨"chat.zip", "chat", 100, "h"⟩ (some (some ⟨"old", 99, 0⟩)) = none ∧
    readInputFileWithCache ⟨"chat.zip", "chat", 100, "h"⟩ false
        (some (some ⟨"old", 99, 0⟩)) "new" = ⟨"new", false⟩ ∧
    readInputFileWithCache ⟨"chat.zip", "chat", 100, "h"⟩ false
        (some (some ⟨"old", 100, 0⟩)) "new" = ⟨"old", true⟩ :=
  ⟨(cachedExtraction_mtime_guard ⟨"chat.zip", "chat", 100, "h"⟩ ⟨"old", 99, 0⟩ "new" false
      (by decide)).1,
   (cachedExtraction_mtime_guard ⟨"chat.zip", "chat", 100, "h"⟩ ⟨"old", 99, 0⟩ "new" false
      (by decide)).2.2.2,
   by decide⟩

/-! ## Normalized-field clustering (claim C9)

Only the test file of `clusterSuggestions` (`src/unnamed/part_018`) is
in the snapshot; the implementation is modelled from the spec. -/

/-- `ClassifiedSuggestion` (fields as constructed by the tests in
`src/unnamed/part_018`). -/
structure ClassifiedSuggestion where
  messageId : ℤ
  isActivity : Bool
  activity : String
  activityScore : ℚ
  category : String
  confidence : ℚ
  originalMessage : String
  sender : String
  timestamp : ℤ
  isGeneric : Bool
  isComplete : Bool
  action : Option String
  actionOriginal : Option String
  object : Option String
  objectOriginal : Option String
  venue : Option String
  city : Option String
  state : Option String
  country : Option String
  deriving DecidableEq, Repr, Inhabited

/-- Modelled from the spec: the two disjoint cluster-key spaces of §4.3
("these two key spaces are disjoint by construction … completeness is
part of the key, never inferred from content"), rendered as distinct
constructors. -/
inductive ClusterKey where
  | complete (key : String)
  | title (key : String)
  deriving DecidableEq, Repr

/-- A lowercased optional field, missing fields as empty string. -/
def lowerOpt : Option String → String
  | some s => jsToLower s
  | none => ""

/-- Modelled from the spec: the cluster key of §4.3 — for complete
entries the case-insensitive tuple `(action, object, venue, city,
country)` joined by `|` with missing fields empty (test scenario:
`"hike|||queenstown|new zealand"`); for incomplete entries the
case-insensitive trimmed literal activity title. -/
def getClusterKey (s : ClassifiedSuggestion) : ClusterKey :=
  if s.isComplete then
    ClusterKey.complete (lowerOpt s.action ++ "|" ++ lowerOpt s.object ++ "|" ++
      lowerOpt s.venue ++ "|" ++ lowerOpt s.city ++ "|" ++ lowerOpt s.country)
  else
    ClusterKey.title (jsTrim (jsToLower s.activity))

/-- Duplicate removal keeping the first occurrence of each element, in
first-appearance order. -/
def dedupFirst {α : Type _} [DecidableEq α] : List α → List α
  | [] => []
  | a :: l => a :: (dedupFirst l).filter (fun b => b ≠ a)

/-- Representative choice of §4.3: highest confidence, ties broken by
highest `activityScore`, further ties by first-seen order. -/
def pickRep (m : ClassifiedSuggestion) (rest : List ClassifiedSuggestion) :
    ClassifiedSuggestion :=
  rest.foldl (fun best cand =>
    if best.confidence < cand.confidence ∨
        (best.confidence = cand.confidence ∧ best.activityScore < cand.activityScore)
    then cand else best) m

/-- A cluster of classified suggestions (spec §3). -/
structure SuggestionCluster where
  clusterKey : ClusterKey
  representative : ClassifiedSuggestion
  instances : List ClassifiedSuggestion
  instanceCount : ℕ
  firstMentioned : ℤ
  lastMentioned : ℤ
  allSenders : List String
  deriving DecidableEq, Repr

/-- The cluster built for one key. -/
def buildCluster (kept : List ClassifiedSuggestion) (k : ClusterKey) :
    SuggestionCluster :=
  let ms := kept.filter (fun s => getClusterKey s = k)
  { clusterKey := k,
    representative := match ms with | [] => default | m :: rest => pickRep m rest,
    instances := ms,
    instanceCount := ms.length,
    firstMentioned :=
      match ms.map (fun s => s.timestamp) with | [] => 0 | t :: ts => ts.foldl min t,
    lastMentioned :=
      match ms.map (fun s => s.timestamp) with | [] => 0 | t :: ts => ts.foldl max t,
    allSenders := dedupFirst (ms.map (fun s => s.sender)) }

/-- Modelled from the spec: `clusterSuggestions` (§4.3; implementation
absent from the snapshot, tests in `src/unnamed/part_018`) — an optional
minimum-activity-score filter reports low scorers separately, the rest
are grouped by exact cluster key, and clusters are sorted by
`instanceCount` descending with ties by earliest `firstMentioned`. -/
def clusterSuggestions (suggestions : List ClassifiedSuggestion)
    (minActivityScore : Option ℚ) :
    List SuggestionCluster × List ClassifiedSuggestion :=
  let kept := match minActivityScore with
    | some t => suggestions.filter (fun s => t ≤ s.activityScore)
    | none => suggestions
  let filtered := match minActivityScore with
    | some t => suggestions.filter (fun s => s.activityScore < t)
    | none => []
  let keys := dedupFirst (kept.map getClusterKey)
  let clusters := keys.map (buildCluster kept)
  (clusters.insertionSort (fun c d => d.instanceCount < c.instanceCount ∨
    (c.instanceCount = d.instanceCount ∧ c.firstMentioned ≤ d.firstMentioned)),
   filtered)

theorem getClusterKey_isComplete (a b : ClassifiedSuggestion)
    (h : getClusterKey a = getClusterKey b) : a.isComplete = b.isComplete := by
  unfold getClusterKey at h
  by_cases ha : a.isComplete = true <;> by_cases hb : b.isComplete = true
  · rw [ha, hb]
  · rw [if_pos ha, if_neg hb] at h
    exact absurd h (by simp)
  · rw [if_neg ha, if_pos hb] at h
    exact absurd h (by simp)
  · rw [Bool.not_eq_true] at ha hb
    rw [ha, hb]

/-- C9: `clusterSuggestions` never places a complete and an incomplete
entry in the same cluster, even when they share an identical literal
activity title: all instances of a cluster agree on `isComplete`,
because completeness selects the key constructor. -/
theorem clusterSuggestions_complete_disjoint
    (suggestions : List ClassifiedSuggestion) (minActivityScore : Option ℚ)
    (cluster : SuggestionCluster)
    (hc : cluster ∈ (clusterSuggestions suggestions minActivityScore).1)
    (a : ClassifiedSuggestion) (ha : a ∈ cluster.instances)
    (b : ClassifiedSuggestion) (hb : b ∈ cluster.instances) :
    a.isComplete = b.isComplete := by
  unfold clusterSuggestions at hc
  have hmem := (List.Perm.mem_iff (List.perm_insertionSort _ _)).mp hc
  obtain ⟨k, _, rfl⟩ := List.mem_map.mp hmem
  unfold buildCluster at ha hb
  simp only at ha hb
  have hka : getClusterKey a = k := by
    have := List.of_mem_filter ha
    simpa using this
  have hkb : getClusterKey b = k := by
    have := List.of_mem_filter hb
    simpa using this
  exact getClusterKey_isComplete a b (hka.trans hkb.symm)

/-- A concrete classified suggestion used to instantiate the clustering
theorem. -/
def sgEx (id : ℤ) (name : String) (complete : Bool) (act : Option String)
    (t : ℤ) : ClassifiedSuggestion :=
  { messageId := id, isActivity := true, activity := name, activityScore := 1,
    category := "other", confidence := 1, originalMessage := name, sender := "u",
    timestamp := t, isGeneric := true, isComplete := complete,
    action := act, actionOriginal := none, object := none, objectOriginal := none,
    venue := none, city := none, state := none, country := none }

/-- C9 witness: two complete `hike` entries cluster together while an
incomplete entry with the identical literal title "Go hiking" lands in
its own cluster; the theorem applies to the two-instance cluster. -/
theorem clusterSuggestions_complete_disjoint_witness :
    ({ clusterKey := ClusterKey.complete "hike||||",
       representative := sgEx 1 "Go hiking" true (some "hike") 1,
       instances := [sgEx 1 "Go hiking" true (some "hike") 1,
         sgEx 2 "Tramping" true (some "hike") 2],
       instanceCount := 2, firstMentioned := 1, lastMentioned := 2,
       allSenders := ["u"] } : SuggestionCluster) ∈
      (clusterSuggestions [sgEx 1 "Go hiking" true (some "hike") 1,
        sgEx 2 "Tramping" true (some "hike") 2,
        sgEx 3 "Go hiking" false (some "hike") 3] none).1 ∧
    ((clusterSuggestions [sgEx 1 "Go hiking" true (some "hike") 1,
        sgEx 2 "Tramping" true (some "hike") 2,
        sgEx 3 "Go hiking" false (some "hike") 3] none).1).length = 2 ∧
    (sgEx 1 "Go hiking" true (some "hike") 1).isComplete =
      (sgEx 2 "Tramping" true (some "hike") 2).isComplete :=
  ⟨by decide, by decide,
   clusterSuggestions_complete_disjoint
     [sgEx 1 "Go hiking" true (some "hike") 1,
       sgEx 2 "Tramping" true (some "hike") 2,
       sgEx 3 "Go hiking" false (some "hike") 3] none
     { clusterKey := ClusterKey.complete "hike||||",
       representative := sgEx 1 "Go hiking" true (some "hike") 1,
       instances := [sgEx 1 "Go hiking" true (some "hike") 1,
         sgEx 2 "Tramping" true (some "hike") 2],
       instanceCount := 2, firstMentioned := 1, lastMentioned := 2,
       allSenders := ["u"] }
     (by decide) _ (by decide) _ (by decide)⟩

end ChatToMap
